import Mathlib

/-!
# ParallelProcessor: a chunked fork-join parallel map

Shallow embedding of `include/ParallelProcessor.hpp`, `include/ParallelProcessor.tpp`
and of the sequential loop of `src/main.cpp`.

* `size_t` values are natural numbers; every `size_t` operation of the source is
  reduced modulo `SIZE_MODULUS = 2 ^ 64`.
* A `std::vector` is a `List`; `results[i] = v` is `List.set`.
* A transform that may throw is a function `T → Except E R`; a transform that
  never throws is `noThrow f`.
* Division by zero and an out-of-range subscript are undefined behaviour in the
  source; the embedding makes them explicit faults.
* A task launched with `std::async` is its half-open index range; the task's
  stored exception is the `Option (Fault E)` its loop ends with, and
  `future::get` rethrows it.
* `parallel_map` is the call when every launch succeeds and the tasks run one
  after the other. `parallel_map_on` adds the number of tasks the platform lets
  a call launch; `parallel_map_scheduled` adds, for a transform that cannot
  throw, the layout of `std::vector<ReturnType>` and the order in which the
  memory accesses of the running tasks happen.
-/

namespace RGT

/-- Number of values of `size_t`. -/
def SIZE_MODULUS : Nat := 2 ^ 64

/-- Addition of two `size_t` values. -/
def sizeAdd (a b : Nat) : Nat := (a + b) % SIZE_MODULUS

/-- Subtraction of two `size_t` values. -/
def sizeSub (a b : Nat) : Nat := (a + (SIZE_MODULUS - b % SIZE_MODULUS)) % SIZE_MODULUS

/-- Multiplication of two `size_t` values. -/
def sizeMul (a b : Nat) : Nat := (a * b) % SIZE_MODULUS

/-- What can stop a call: the two undefined operations the source can reach,
    an exception thrown by the transform, and the exception of a launch that
    fails (`std::async` cannot start a thread, or `futures.push_back` cannot grow
    the vector). -/
inductive Fault (E : Type) where
  | divideByZero : Fault E
  | outOfRange : Fault E
  | thrown (e : E) : Fault E
  | launchFailed : Fault E
  deriving DecidableEq

/-- The class `ParallelProcessor<T>`: its only member is `numThreads`.
    The constructor `ParallelProcessor(size_t numThreads) : numThreads(numThreads) {}`
    is `ParallelProcessor.mk`: it stores its argument and does nothing else. -/
structure ParallelProcessor where
  numThreads : Nat
  deriving DecidableEq

/-- A transform that returns `f x` and never throws. -/
def noThrow {T E R : Type} (f : T → R) : T → Except E R := fun x => Except.ok (f x)

/-- Line 15: `size_t chunkSize = (data.size() + numThreads - 1) / numThreads;`
    (the division itself; the caller has excluded `numThreads = 0`). -/
def chunkSize (size numThreads : Nat) : Nat :=
  sizeSub (sizeAdd size numThreads) 1 / numThreads

/-- Line 19: `size_t start = t * chunkSize;` -/
def chunkStart (chunkSize t : Nat) : Nat := sizeMul t chunkSize

/-- Line 20: `size_t end = std::min(start + chunkSize, data.size());` -/
def chunkEnd (size chunkSize t : Nat) : Nat :=
  min (sizeAdd (chunkStart chunkSize t) chunkSize) size

/-- Lines 18-29, the launching loop `for (size_t t = 0; t < numThreads; ++t)`:
    the first argument counts the iterations left (`numThreads - t`), the second
    is `t`. The result is the list of the ranges `[start, end)` of the tasks
    pushed onto `futures`, in launch order. -/
def launchLoop (size chunkSize : Nat) : Nat → Nat → List (Nat × Nat)
  | 0, _ => []
  | k + 1, t =>
    if chunkStart chunkSize t ≥ size then []
    else (chunkStart chunkSize t, chunkEnd size chunkSize t) ::
      launchLoop size chunkSize k (t + 1)

/-- The ranges of the tasks that `parallel_map` launches on an input of `size` elements. -/
def launchedTasks (p : ParallelProcessor) (size : Nat) : List (Nat × Nat) :=
  launchLoop size (chunkSize size p.numThreads) p.numThreads 0

/-- Line 26: `results[i] = func(data[i]);` -/
def writeSlot {T E R : Type} (data : List T) (func : T → Except E R)
    (results : List R) (i : Nat) : Except (Fault E) (List R) :=
  match data[i]? with
  | none => Except.error Fault.outOfRange
  | some item =>
    match func item with
    | Except.error e => Except.error (Fault.thrown e)
    | Except.ok r => Except.ok (results.set i r)

/-- Lines 25-27, the body of one task: `for (size_t i = start; i < end; ++i)`.
    The first argument counts the iterations left (`end - i`), the second is `i`.
    Returns the shared buffer as the task leaves it and the exception stored in
    the task's future, if any. -/
def chunkLoop {T E R : Type} (data : List T) (func : T → Except E R) :
    Nat → Nat → List R → List R × Option (Fault E)
  | 0, _, results => (results, none)
  | k + 1, i, results =>
    match writeSlot data func results i with
    | Except.error flt => (results, some flt)
    | Except.ok results1 => chunkLoop data func k (i + 1) results1

/-- One launched task run to completion on the shared buffer. -/
def runChunk {T E R : Type} (data : List T) (func : T → Except E R)
    (range : Nat × Nat) (results : List R) : List R × Option (Fault E) :=
  chunkLoop data func (range.2 - range.1) range.1 results

/-- All launched tasks run to completion, one after the other in launch order.
    Returns the buffer and the state of every future. A task that throws stops,
    its siblings still run. -/
def runAll {T E R : Type} (data : List T) (func : T → Except E R) :
    List (Nat × Nat) → List R → List R × List (Option (Fault E))
  | [], results => (results, [])
  | range :: rest, results =>
    let done := runChunk data func range results
    let others := runAll data func rest done.1
    (others.1, done.2 :: others.2)

/-- Lines 31-33: `for (auto& f : futures) f.get();` rethrows the first stored
    exception, in launch order. -/
def joinAll {E : Type} : List (Option (Fault E)) → Except (Fault E) Unit
  | [] => Except.ok ()
  | none :: rest => joinAll rest
  | some flt :: _ => Except.error flt

/-- `ParallelProcessor<T>::parallel_map` (lines 9-36), when every launch succeeds
    and the tasks run one after the other in launch order. -/
def parallel_map {T E R : Type} [Inhabited R] (p : ParallelProcessor) (data : List T)
    (func : T → Except E R) : Except (Fault E) (List R) :=
  let results : List R := List.replicate data.length default
  if p.numThreads = 0 then Except.error Fault.divideByZero
  else
    let futures := launchedTasks p data.length
    let finished := runAll data func futures results
    match joinAll finished.2 with
    | Except.error flt => Except.error flt
    | Except.ok _ => Except.ok finished.1

/-- The slots written by the launched tasks, task after task. -/
def launchedWrites (futures : List (Nat × Nat)) : List Nat :=
  futures.flatMap (fun range => List.range' range.1 (range.2 - range.1))

/-- Upper bound of `max_size()` of every `std::vector`, `PTRDIFF_MAX`: neither
    `data` nor `futures` can hold more elements. -/
def VECTOR_MAX_SIZE : Nat := 2 ^ 63 - 1

/-- `ParallelProcessor<T>::parallel_map` (lines 9-36) on a platform that lets one
    call launch `capacity` tasks: the launch after the last possible one throws
    out of the loop of lines 18-29 and the call ends with that exception. -/
def parallel_map_on {T E R : Type} [Inhabited R] (capacity : Nat) (p : ParallelProcessor)
    (data : List T) (func : T → Except E R) : Except (Fault E) (List R) :=
  if p.numThreads = 0 then Except.error Fault.divideByZero
  else if capacity < (launchedTasks p data.length).length then Except.error Fault.launchFailed
  else parallel_map p data func

/-- The loop of `measure_sequential` (src/main.cpp, lines 15-19):
    `result.clear(); for (const auto& item : data) result.push_back(func(item));`.
    Returns the content of `result` after the loop; the elapsed time the source
    returns is not modelled. The source instantiates `R` with `T`. -/
def measure_sequential {T R : Type} (data : List T) (_result : List R) (func : T → R) : List R :=
  data.foldl (fun result item => result ++ [func item]) []

/-! ## Auxiliary definitions used by the proofs -/

/-- The ideal task of worker `t`. -/
def idealChunk (size chunkSize t : Nat) : Nat × Nat :=
  (t * chunkSize, min (t * chunkSize + chunkSize) size)

/-- The write of slot `i` by a transform that cannot throw, as a total function
    on buffers (a slot outside `data` is left alone). -/
def pureWrite {T R : Type} (data : List T) (f : T → R) (results : List R) (i : Nat) : List R :=
  match data[i]? with
  | none => results
  | some item => results.set i (f item)

/-- The value a transform returns where it does not throw. -/
def valueOf {T E R : Type} [Inhabited R] (func : T → Except E R) (x : T) : R :=
  match func x with
  | Except.ok r => r
  | Except.error _ => default

theorem sizeSub_sizeAdd_one (n w : Nat) (hw : 1 ≤ w) (hfit : n + w - 1 < SIZE_MODULUS) :
    sizeSub (sizeAdd n w) 1 = n + w - 1 := by
  unfold sizeSub sizeAdd SIZE_MODULUS at *
  omega

theorem chunkSize_eq (n w : Nat) (hw : 1 ≤ w) (hfit : n + w - 1 < SIZE_MODULUS) :
    chunkSize n w = (n + w - 1) / w := by
  unfold chunkSize
  rw [sizeSub_sizeAdd_one n w hw hfit]

theorem mul_ceil_le (n w : Nat) : w * ((n + w - 1) / w) ≤ n + w - 1 :=
  Nat.mul_div_le (n + w - 1) w

theorem le_mul_ceil (n w : Nat) (hw : 1 ≤ w) : n ≤ w * ((n + w - 1) / w) := by
  have h1 := Nat.div_add_mod (n + w - 1) w
  have h2 := Nat.mod_lt (n + w - 1) (show w > 0 by omega)
  omega

theorem ceil_pos (n w : Nat) (hn : 1 ≤ n) (hw : 1 ≤ w) : 1 ≤ (n + w - 1) / w := by
  have h := le_mul_ceil n w hw
  rcases Nat.eq_zero_or_pos ((n + w - 1) / w) with h0 | h0
  · rw [h0] at h
    omega
  · exact h0

theorem succ_mul_ceil_le (n w t : Nat) (ht : t < w) :
    t * ((n + w - 1) / w) + (n + w - 1) / w ≤ n + w - 1 := by
  have h1 : (t + 1) * ((n + w - 1) / w) ≤ w * ((n + w - 1) / w) :=
    Nat.mul_le_mul_right _ ht
  have h2 := mul_ceil_le n w
  have h3 : (t + 1) * ((n + w - 1) / w) = t * ((n + w - 1) / w) + (n + w - 1) / w := by
    ring
  omega

theorem chunkStart_eq (n w t : Nat) (ht : t < w) (hfit : n + w - 1 < SIZE_MODULUS) :
    chunkStart ((n + w - 1) / w) t = t * ((n + w - 1) / w) := by
  have h := succ_mul_ceil_le n w t ht
  unfold chunkStart sizeMul
  apply Nat.mod_eq_of_lt
  generalize (n + w - 1) / w = cs at h
  omega

theorem chunkEnd_eq (n w t : Nat) (ht : t < w) (hfit : n + w - 1 < SIZE_MODULUS) :
    chunkEnd n ((n + w - 1) / w) t
      = min (t * ((n + w - 1) / w) + (n + w - 1) / w) n := by
  have h := succ_mul_ceil_le n w t ht
  unfold chunkEnd
  rw [chunkStart_eq n w t ht hfit]
  unfold sizeAdd
  generalize (n + w - 1) / w = cs at h
  rw [Nat.mod_eq_of_lt (by omega)]

/-- With a positive chunk size, `t * cs < n` exactly for `t` below `⌈n / cs⌉`. -/
theorem lt_chunkCount_iff (n cs t : Nat) (hcs : 1 ≤ cs) :
    t < (n + cs - 1) / cs ↔ t * cs < n := by
  rw [Nat.lt_iff_add_one_le, Nat.le_div_iff_mul_le (by omega)]
  have h : (t + 1) * cs = t * cs + cs := by ring
  omega

theorem launchLoop_ideal (n w : Nat) (hn : 1 ≤ n) (hw : 1 ≤ w)
    (hfit : n + w - 1 < SIZE_MODULUS) :
    ∀ k t, t + k ≤ w →
      launchLoop n ((n + w - 1) / w) k t
        = (List.range' t (min k ((n + (n + w - 1) / w - 1) / ((n + w - 1) / w) - t))).map
            (idealChunk n ((n + w - 1) / w)) := by
  have hcs := ceil_pos n w hn hw
  intro k
  induction k with
  | zero => intro t _; simp [launchLoop]
  | succ k ih =>
    intro t htk
    have ht : t < w := by omega
    have hiff := lt_chunkCount_iff n ((n + w - 1) / w) t hcs
    unfold launchLoop
    rw [chunkStart_eq n w t ht hfit, chunkEnd_eq n w t ht hfit]
    by_cases hlt : t * ((n + w - 1) / w) < n
    · have htk2 := hiff.mpr hlt
      rw [if_neg (by omega), ih (t + 1) (by omega)]
      have hmin : min (k + 1) ((n + (n + w - 1) / w - 1) / ((n + w - 1) / w) - t)
          = min k ((n + (n + w - 1) / w - 1) / ((n + w - 1) / w) - (t + 1)) + 1 := by
        omega
      rw [hmin, List.range'_succ]
      simp [idealChunk]
    · have htk2 : ¬ t < (n + (n + w - 1) / w - 1) / ((n + w - 1) / w) := fun h => hlt (hiff.mp h)
      rw [if_pos (by omega)]
      have hmin : min (k + 1) ((n + (n + w - 1) / w - 1) / ((n + w - 1) / w) - t) = 0 := by
        omega
      rw [hmin]
      simp

theorem chunkCount_le (n w : Nat) (hn : 1 ≤ n) (hw : 1 ≤ w) :
    (n + (n + w - 1) / w - 1) / ((n + w - 1) / w) ≤ w := by
  have hcs := ceil_pos n w hn hw
  by_contra hlt
  have h := (lt_chunkCount_iff n ((n + w - 1) / w) w hcs).mp (by omega)
  have h2 := le_mul_ceil n w hw
  omega

/-- Without wrap-around the launched tasks are the ideal chunks `0 .. ⌈n / cs⌉ - 1`. -/
theorem launchedTasks_eq (n w : Nat) (hn : 1 ≤ n) (hw : 1 ≤ w)
    (hfit : n + w - 1 < SIZE_MODULUS) :
    launchedTasks ⟨w⟩ n
      = (List.range ((n + (n + w - 1) / w - 1) / ((n + w - 1) / w))).map
          (idealChunk n ((n + w - 1) / w)) := by
  unfold launchedTasks
  simp only []
  rw [chunkSize_eq n w hw hfit, launchLoop_ideal n w hn hw hfit w 0 (by omega)]
  have h := chunkCount_le n w hn hw
  rw [Nat.sub_zero, Nat.min_eq_right h, List.range_eq_range']

theorem launchLoop_empty (cs k t : Nat) : launchLoop 0 cs k t = [] := by
  cases k <;> simp [launchLoop]

theorem launchedTasks_empty (p : ParallelProcessor) : launchedTasks p 0 = [] :=
  launchLoop_empty _ _ _

theorem launchLoop_zero_chunk (n : Nat) (hn : 1 ≤ n) :
    ∀ k t, launchLoop n 0 k t = List.replicate k (0, 0) := by
  intro k
  induction k with
  | zero => intro t; rfl
  | succ k ih =>
    intro t
    unfold launchLoop
    have h1 : chunkStart 0 t = 0 := by simp [chunkStart, sizeMul]
    have h2 : chunkEnd n 0 t = 0 := by simp [chunkEnd, h1, sizeAdd]
    rw [h1, h2, if_neg (by omega), ih (t + 1), List.replicate_succ]

/-! ## Running tasks whose transform cannot throw -/

theorem pureWrite_length {T R : Type} (data : List T) (f : T → R) (results : List R) (i : Nat) :
    (pureWrite data f results i).length = results.length := by
  unfold pureWrite
  split <;> simp

theorem foldl_pureWrite_length {T R : Type} (data : List T) (f : T → R) :
    ∀ (sched : List Nat) (results : List R),
      (sched.foldl (pureWrite data f) results).length = results.length := by
  intro sched
  induction sched with
  | nil => intro results; rfl
  | cons i rest ih =>
    intro results
    rw [List.foldl_cons, ih, pureWrite_length]

theorem writeSlot_noThrow {T E R : Type} (data : List T) (f : T → R) (results : List R)
    (i : Nat) (hi : i < data.length) :
    writeSlot data (noThrow f : T → Except E R) results i
      = Except.ok (pureWrite data f results i) := by
  unfold writeSlot pureWrite noThrow
  rw [List.getElem?_eq_getElem hi]

theorem chunkLoop_noThrow {T E R : Type} (data : List T) (f : T → R) :
    ∀ (k i : Nat) (results : List R), i + k ≤ data.length →
      chunkLoop data (noThrow f : T → Except E R) k i results
        = ((List.range' i k).foldl (pureWrite data f) results, none) := by
  intro k
  induction k with
  | zero => intro i results _; rfl
  | succ k ih =>
    intro i results h
    unfold chunkLoop
    rw [writeSlot_noThrow data f results i (by omega)]
    simp only []
    rw [ih (i + 1) _ (by omega), List.range'_succ, List.foldl_cons]

theorem runAll_noThrow {T E R : Type} (data : List T) (f : T → R) :
    ∀ (tasks : List (Nat × Nat)) (results : List R),
      (∀ r ∈ tasks, r.1 + (r.2 - r.1) ≤ data.length) →
      runAll data (noThrow f : T → Except E R) tasks results
        = ((launchedWrites tasks).foldl (pureWrite data f) results,
            List.replicate tasks.length none) := by
  intro tasks
  induction tasks with
  | nil => intro results _; rfl
  | cons r rest ih =>
    intro results h
    unfold runAll runChunk
    simp only []
    rw [chunkLoop_noThrow data f _ _ _ (h r (List.mem_cons_self _ _))]
    simp only []
    rw [ih _ (fun r1 h1 => h r1 (List.mem_cons_of_mem _ h1))]
    simp [launchedWrites, List.replicate_succ]

theorem joinAll_replicate_none {E : Type} (k : Nat) :
    joinAll (List.replicate k (none : Option (Fault E))) = Except.ok () := by
  induction k with
  | zero => rfl
  | succ k ih => rw [List.replicate_succ, joinAll, ih]

/-- Every launched range starts inside the input and ends at most at its size,
    whatever the arithmetic did. -/
theorem launchLoop_bounds (n cs : Nat) :
    ∀ k t, ∀ r ∈ launchLoop n cs k t, r.1 < n ∧ r.2 ≤ n := by
  intro k
  induction k with
  | zero => intro t r hr; simp [launchLoop] at hr
  | succ k ih =>
    intro t r hr
    unfold launchLoop at hr
    split at hr
    · simp at hr
    · rcases List.mem_cons.mp hr with h | h
      · subst h
        refine ⟨by simpa using ‹¬ chunkStart cs t ≥ n›, ?_⟩
        unfold chunkEnd
        exact Nat.min_le_right _ _
      · exact ih (t + 1) r h

theorem launchedWrites_lt (n cs k t : Nat) :
    ∀ i ∈ launchedWrites (launchLoop n cs k t), i < n := by
  intro i hi
  unfold launchedWrites at hi
  rcases List.mem_flatMap.mp hi with ⟨r, hr, hir⟩
  have hb := launchLoop_bounds n cs k t r hr
  rw [List.mem_range'_1] at hir
  omega

/-- The canonical run of a transform that cannot throw: the launched writes
    performed task after task. -/
theorem parallel_map_noThrow {T E R : Type} [Inhabited R] (W : Nat) (hW : 1 ≤ W)
    (data : List T) (f : T → R) :
    parallel_map ⟨W⟩ data (noThrow f : T → Except E R)
      = Except.ok ((launchedWrites (launchedTasks ⟨W⟩ data.length)).foldl (pureWrite data f)
          (List.replicate data.length default)) := by
  unfold parallel_map
  simp only []
  rw [if_neg (by omega), runAll_noThrow]
  · simp only []
    rw [joinAll_replicate_none]
  · intro r hr
    have hb := launchLoop_bounds _ _ _ _ r hr
    omega

/-- Content of the buffer after any sequence of writes: a written slot holds the
    transform of its input, any other slot is untouched. -/
theorem foldl_pureWrite_getElem? {T R : Type} (data : List T) (f : T → R) :
    ∀ (sched : List Nat) (results : List R), results.length = data.length →
      ∀ j, (sched.foldl (pureWrite data f) results)[j]?
        = if j ∈ sched then data[j]?.map f else results[j]? := by
  intro sched
  induction sched with
  | nil => intro results _ j; simp
  | cons i rest ih =>
    intro results hlen j
    rw [List.foldl_cons, ih _ (by rw [pureWrite_length, hlen]) j]
    by_cases hj : j ∈ rest
    · simp [hj]
    · rw [if_neg hj]
      by_cases hji : j = i
      · subst hji
        simp only [List.mem_cons, true_or, if_true]
        unfold pureWrite
        cases hd : data[j]? with
        | none =>
          have : data.length ≤ j := by
            by_contra hlt
            rw [List.getElem?_eq_getElem (by omega)] at hd
            exact absurd hd (by simp)
          simp only [Option.map_none']
          exact List.getElem?_eq_none (by omega)
        | some x =>
          have : j < data.length := by
            by_contra hlt
            rw [List.getElem?_eq_none (by omega)] at hd
            exact absurd hd (by simp)
          simp only [Option.map_some']
          rw [List.getElem?_set_self (by omega)]
      · have hmem : ¬ j ∈ i :: rest := by
          simp [hji, hj]
        rw [if_neg hmem]
        unfold pureWrite
        split
        · rfl
        · rw [List.getElem?_set_ne (fun h => hji h.symm)]

/-- Without wrap-around every slot of the input is written by a launched task. -/
theorem mem_launchedWrites (n w : Nat) (hw : 1 ≤ w) (hfit : n + w - 1 < SIZE_MODULUS)
    (j : Nat) (hj : j < n) : j ∈ launchedWrites (launchedTasks ⟨w⟩ n) := by
  have hn : 1 ≤ n := by omega
  have hcs := ceil_pos n w hn hw
  rw [launchedTasks_eq n w hn hw hfit]
  unfold launchedWrites
  generalize (n + w - 1) / w = cs at hcs
  have hdm := Nat.div_add_mod j cs
  have hml := Nat.mod_lt j (show cs > 0 by omega)
  have hcomm : cs * (j / cs) = j / cs * cs := Nat.mul_comm _ _
  have ht : j / cs < (n + cs - 1) / cs := (lt_chunkCount_iff n cs (j / cs) hcs).mpr (by omega)
  refine List.mem_flatMap.mpr ⟨idealChunk n cs (j / cs), ?_, ?_⟩
  · exact List.mem_map.mpr ⟨j / cs, List.mem_range.mpr ht, rfl⟩
  · rw [List.mem_range'_1]
    unfold idealChunk
    simp only []
    omega

/-- Without wrap-around a transform that cannot throw is mapped over the input. -/
theorem parallel_map_eq_map {T E R : Type} [Inhabited R] (W : Nat) (hW : 1 ≤ W)
    (data : List T) (f : T → R) (hfit : data.length + W - 1 < SIZE_MODULUS) :
    parallel_map ⟨W⟩ data (noThrow f : T → Except E R) = Except.ok (data.map f) := by
  rw [parallel_map_noThrow W hW data f]
  congr 1
  apply List.ext_getElem?
  intro j
  rw [foldl_pureWrite_getElem? data f _ _ (by simp) j, List.getElem?_map]
  by_cases hj : j < data.length
  · rw [if_pos (mem_launchedWrites data.length W hW hfit j hj)]
  · have hnot : ¬ j ∈ launchedWrites (launchedTasks ⟨W⟩ data.length) :=
      fun h => hj (launchedWrites_lt _ _ _ _ j h)
    rw [if_neg hnot, List.getElem?_eq_none (by simp; omega),
      List.getElem?_eq_none (by omega)]
    rfl

/-! ## Running tasks whose transform may throw -/

theorem writeSlot_congr {T E R : Type} (data : List T) (func : T → Except E R) (v : T → R)
    (hv : ∀ x ∈ data, func x = Except.ok (v x)) (results : List R) (i : Nat) :
    writeSlot data func results i = writeSlot data (noThrow v : T → Except E R) results i := by
  unfold writeSlot
  cases hd : data[i]? with
  | none => rfl
  | some x =>
    simp only []
    rw [hv x (List.getElem?_mem hd)]
    rfl

theorem chunkLoop_congr {T E R : Type} (data : List T) (func : T → Except E R) (v : T → R)
    (hv : ∀ x ∈ data, func x = Except.ok (v x)) :
    ∀ (k i : Nat) (results : List R),
      chunkLoop data func k i results
        = chunkLoop data (noThrow v : T → Except E R) k i results := by
  intro k
  induction k with
  | zero => intro i results; rfl
  | succ k ih =>
    intro i results
    unfold chunkLoop
    rw [writeSlot_congr data func v hv]
    split
    · rfl
    · exact ih _ _

theorem runAll_congr {T E R : Type} (data : List T) (func : T → Except E R) (v : T → R)
    (hv : ∀ x ∈ data, func x = Except.ok (v x)) :
    ∀ (tasks : List (Nat × Nat)) (results : List R),
      runAll data func tasks results
        = runAll data (noThrow v : T → Except E R) tasks results := by
  intro tasks
  induction tasks with
  | nil => intro results; rfl
  | cons r rest ih =>
    intro results
    unfold runAll runChunk
    simp only []
    rw [chunkLoop_congr data func v hv, ih]

theorem parallel_map_congr {T E R : Type} [Inhabited R] (p : ParallelProcessor)
    (data : List T) (func : T → Except E R) (v : T → R)
    (hv : ∀ x ∈ data, func x = Except.ok (v x)) :
    parallel_map p data func = parallel_map p data (noThrow v : T → Except E R) := by
  unfold parallel_map
  simp only []
  rw [runAll_congr data func v hv]

/-- A task whose future holds no exception has transformed every slot of its range. -/
theorem chunkLoop_none {T E R : Type} (data : List T) (func : T → Except E R) :
    ∀ (k i : Nat) (results : List R), (chunkLoop data func k i results).2 = none →
      ∀ j, i ≤ j → j < i + k → ∃ x r, data[j]? = some x ∧ func x = Except.ok r := by
  intro k
  induction k with
  | zero => intro i results _ j h1 h2; omega
  | succ k ih =>
    intro i results h j h1 h2
    unfold chunkLoop at h
    unfold writeSlot at h
    cases hd : data[i]? with
    | none => rw [hd] at h; simp at h
    | some x =>
      rw [hd] at h
      simp only [] at h
      cases hf : func x with
      | error e => rw [hf] at h; simp at h
      | ok r =>
        rw [hf] at h
        simp only [] at h
        by_cases hji : j = i
        · subst hji
          exact ⟨x, r, hd, hf⟩
        · exact ih (i + 1) _ h j (by omega) (by omega)

/-- The exception a task stores is one thrown by the transform on an element of the input. -/
theorem chunkLoop_some {T E R : Type} (data : List T) (func : T → Except E R) :
    ∀ (k i : Nat) (results : List R) (flt : Fault E),
      (chunkLoop data func k i results).2 = some flt → i + k ≤ data.length →
      ∃ x ∈ data, ∃ e, func x = Except.error e ∧ flt = Fault.thrown e := by
  intro k
  induction k with
  | zero => intro i results flt h _; simp [chunkLoop] at h
  | succ k ih =>
    intro i results flt h hb
    unfold chunkLoop at h
    unfold writeSlot at h
    rw [List.getElem?_eq_getElem (show i < data.length by omega)] at h
    simp only [] at h
    cases hf : func data[i] with
    | error e =>
      rw [hf] at h
      simp only [Option.some.injEq] at h
      exact ⟨data[i], List.getElem_mem _, e, hf, h.symm⟩
    | ok r =>
      rw [hf] at h
      simp only [] at h
      exact ih (i + 1) _ flt h (by omega)

theorem runAll_join_ok {T E R : Type} (data : List T) (func : T → Except E R) :
    ∀ (tasks : List (Nat × Nat)) (results : List R),
      joinAll (runAll data func tasks results).2 = Except.ok () →
      ∀ r ∈ tasks, ∀ j, r.1 ≤ j → j < r.2 →
        ∃ x y, data[j]? = some x ∧ func x = Except.ok y := by
  intro tasks
  induction tasks with
  | nil => intro results _ r hr; simp at hr
  | cons r0 rest ih =>
    intro results h r hr j h1 h2
    unfold runAll at h
    simp only [] at h
    cases hs : (runChunk data func r0 results).2 with
    | some flt => rw [hs] at h; simp [joinAll] at h
    | none =>
      rw [hs] at h
      simp only [joinAll] at h
      rcases List.mem_cons.mp hr with hr | hr
      · subst hr
        unfold runChunk at hs
        exact chunkLoop_none data func _ _ _ hs j h1 (by omega)
      · exact ih _ h r hr j h1 h2

theorem runAll_join_error {T E R : Type} (data : List T) (func : T → Except E R) :
    ∀ (tasks : List (Nat × Nat)) (results : List R) (flt : Fault E),
      (∀ r ∈ tasks, r.1 + (r.2 - r.1) ≤ data.length) →
      joinAll (runAll data func tasks results).2 = Except.error flt →
      ∃ x ∈ data, ∃ e, func x = Except.error e ∧ flt = Fault.thrown e := by
  intro tasks
  induction tasks with
  | nil => intro results flt _ h; simp [runAll, joinAll] at h
  | cons r0 rest ih =>
    intro results flt hb h
    unfold runAll at h
    simp only [] at h
    cases hs : (runChunk data func r0 results).2 with
    | some flt0 =>
      rw [hs] at h
      simp only [joinAll, Except.error.injEq] at h
      subst h
      unfold runChunk at hs
      exact chunkLoop_some data func _ _ _ _ hs (hb r0 (List.mem_cons_self _ _))
    | none =>
      rw [hs] at h
      simp only [joinAll] at h
      exact ih _ flt (fun r hr => hb r (List.mem_cons_of_mem _ hr)) h

theorem writeSlot_length {T E R : Type} (data : List T) (func : T → Except E R)
    (results results1 : List R) (i : Nat)
    (h : writeSlot data func results i = Except.ok results1) :
    results1.length = results.length := by
  unfold writeSlot at h
  split at h
  · simp at h
  · split at h
    · simp at h
    · rw [Except.ok.injEq] at h
      rw [← h, List.length_set]

theorem chunkLoop_length {T E R : Type} (data : List T) (func : T → Except E R) :
    ∀ (k i : Nat) (results : List R),
      (chunkLoop data func k i results).1.length = results.length := by
  intro k
  induction k with
  | zero => intro i results; rfl
  | succ k ih =>
    intro i results
    unfold chunkLoop
    cases hw : writeSlot data func results i with
    | error flt => rfl
    | ok results1 =>
      simp only []
      rw [ih, writeSlot_length data func results results1 i hw]

theorem runAll_length {T E R : Type} (data : List T) (func : T → Except E R) :
    ∀ (tasks : List (Nat × Nat)) (results : List R),
      (runAll data func tasks results).1.length = results.length := by
  intro tasks
  induction tasks with
  | nil => intro results; rfl
  | cons r rest ih =>
    intro results
    unfold runAll runChunk
    simp only []
    rw [ih, chunkLoop_length]

/-- Whatever the transform, a vector returned as a success has the size of the input. -/
theorem parallel_map_ok_length {T E R : Type} [Inhabited R] (p : ParallelProcessor)
    (data : List T) (func : T → Except E R) (result : List R)
    (h : parallel_map p data func = Except.ok result) : result.length = data.length := by
  unfold parallel_map at h
  simp only [] at h
  split at h
  · simp at h
  · split at h
    · simp at h
    · rw [Except.ok.injEq] at h
      rw [← h, runAll_length, List.length_replicate]

/-! ## Ceiling of a quotient -/

theorem natCeil_div (a b : Nat) (hb : 1 ≤ b) : ⌈(a : ℚ) / (b : ℚ)⌉₊ = (a + b - 1) / b := by
  have hbq : (0 : ℚ) < (b : ℚ) := by exact_mod_cast hb
  apply le_antisymm
  · rw [Nat.ceil_le, div_le_iff₀ hbq]
    have h := le_mul_ceil a b hb
    rw [Nat.mul_comm] at h
    exact_mod_cast h
  · have h1 : (a : ℚ) / (b : ℚ) ≤ (⌈(a : ℚ) / (b : ℚ)⌉₊ : ℚ) := Nat.le_ceil _
    rw [div_le_iff₀ hbq] at h1
    have h2 : a ≤ ⌈(a : ℚ) / (b : ℚ)⌉₊ * b := by exact_mod_cast h1
    have h3 : (a + b - 1) / b < ⌈(a : ℚ) / (b : ℚ)⌉₊ + 1 := by
      rw [Nat.div_lt_iff_lt_mul (by omega)]
      have h4 : (⌈(a : ℚ) / (b : ℚ)⌉₊ + 1) * b = ⌈(a : ℚ) / (b : ℚ)⌉₊ * b + b := by ring
      omega
    omega

/-! ## A wrapped chunk size -/

/-- When the chunk size has wrapped to zero on a non-empty input, every worker
    gets the empty range `[0, 0)`. -/
theorem launchedTasks_wrapped (W n : Nat) (hn : 1 ≤ n) (hcs : chunkSize n W = 0) :
    launchedTasks ⟨W⟩ n = List.replicate W (0, 0) := by
  unfold launchedTasks
  simp only []
  rw [hcs, launchLoop_zero_chunk n hn]

/-! ## Position of a slot among the launched ranges -/

theorem launchedTasks_getElem? (n w : Nat) (hn : 1 ≤ n) (hw : 1 ≤ w)
    (hfit : n + w - 1 < SIZE_MODULUS) (t : Nat) (r : Nat × Nat) :
    (launchedTasks ⟨w⟩ n)[t]? = some r ↔
      t < (n + (n + w - 1) / w - 1) / ((n + w - 1) / w) ∧
        r = idealChunk n ((n + w - 1) / w) t := by
  rw [launchedTasks_eq n w hn hw hfit, List.getElem?_map]
  by_cases ht : t < (n + (n + w - 1) / w - 1) / ((n + w - 1) / w)
  · rw [List.getElem?_range ht]
    simp only [Option.map_some', Option.some.injEq]
    constructor
    · intro h; exact ⟨ht, h.symm⟩
    · intro h; exact h.2.symm
  · rw [List.getElem?_eq_none (by simpa using ht)]
    simp only [Option.map_none']
    constructor
    · intro h; exact absurd h (by simp)
    · intro h; exact absurd h.1 ht

/-- A slot of an ideal chunk `t` determines `t`. -/
theorem idealChunk_index (n cs t i : Nat) (h1 : (idealChunk n cs t).1 ≤ i)
    (h2 : i < (idealChunk n cs t).2) : t = i / cs := by
  unfold idealChunk at h1 h2
  simp only [] at h1 h2
  symm
  apply Nat.div_eq_of_lt_le h1
  have h3 : (t + 1) * cs = t * cs + cs := by ring
  omega

theorem measure_sequential_eq_map {T R : Type} (data : List T) (prior : List R) (f : T → R) :
    measure_sequential data prior f = data.map f := by
  have h : ∀ (l : List T) (acc : List R),
      l.foldl (fun result item => result ++ [f item]) acc = acc ++ l.map f := by
    intro l
    induction l with
    | nil => intro acc; simp
    | cons x rest ih => intro acc; rw [List.foldl_cons, ih]; simp
  unfold measure_sequential
  rw [h]
  rfl

theorem launchedTasks_single (n : Nat) (hn : 1 ≤ n) (hsize : n < SIZE_MODULUS) :
    launchedTasks ⟨1⟩ n = [(0, n)] := by
  unfold launchedTasks
  simp only []
  rw [chunkSize_eq n 1 (le_refl 1) (by omega)]
  have hcs : (n + 1 - 1) / 1 = n := by simp
  rw [hcs]
  unfold launchLoop
  have h1 : chunkStart n 0 = 0 := by simp [chunkStart, sizeMul]
  have h2 : chunkEnd n n 0 = n := by
    unfold chunkEnd
    rw [h1]
    unfold sizeAdd
    rw [Nat.zero_add, Nat.mod_eq_of_lt hsize, Nat.min_self]
  rw [h1, h2, if_neg (by omega)]
  rfl

/-! ## A transform that may throw, without wrap-around -/

/-- A slot inside the input lies in a launched range. -/
theorem exists_launched_range (n w : Nat) (hw : 1 ≤ w) (hfit : n + w - 1 < SIZE_MODULUS)
    (j : Nat) (hj : j < n) : ∃ r ∈ launchedTasks ⟨w⟩ n, r.1 ≤ j ∧ j < r.2 := by
  have h := mem_launchedWrites n w hw hfit j hj
  unfold launchedWrites at h
  rcases List.mem_flatMap.mp h with ⟨r, hr, hjr⟩
  rw [List.mem_range'_1] at hjr
  exact ⟨r, hr, hjr.1, by omega⟩

theorem parallel_map_ok_all {T E R : Type} [Inhabited R] (W : Nat) (hW : 1 ≤ W)
    (data : List T) (func : T → Except E R) (hfit : data.length + W - 1 < SIZE_MODULUS)
    (result : List R) (h : parallel_map ⟨W⟩ data func = Except.ok result) :
    ∀ x ∈ data, ∃ y, func x = Except.ok y := by
  unfold parallel_map at h
  simp only [] at h
  rw [if_neg (by omega)] at h
  intro x hx
  rcases List.mem_iff_getElem?.mp hx with ⟨j, hj⟩
  have hjn : j < data.length := by
    by_contra hlt
    rw [List.getElem?_eq_none (by omega)] at hj
    exact absurd hj (by simp)
  rcases exists_launched_range data.length W hW hfit j hjn with ⟨r, hr, h1, h2⟩
  cases hjoin : joinAll (runAll data func (launchedTasks ⟨W⟩ data.length)
      (List.replicate data.length default)).2 with
  | error flt => rw [hjoin] at h; simp at h
  | ok u =>
    rcases runAll_join_ok data func _ _ hjoin r hr j h1 h2 with ⟨x1, y, hx1, hy⟩
    rw [hj] at hx1
    rw [Option.some.injEq] at hx1
    subst hx1
    exact ⟨y, hy⟩

theorem parallel_map_error_thrown {T E R : Type} [Inhabited R] (W : Nat) (hW : 1 ≤ W)
    (data : List T) (func : T → Except E R) (flt : Fault E)
    (h : parallel_map ⟨W⟩ data func = Except.error flt) :
    ∃ x ∈ data, ∃ e, func x = Except.error e ∧ flt = Fault.thrown e := by
  unfold parallel_map at h
  simp only [] at h
  rw [if_neg (by omega)] at h
  cases hjoin : joinAll (runAll data func (launchedTasks ⟨W⟩ data.length)
      (List.replicate data.length default)).2 with
  | ok u => rw [hjoin] at h; simp at h
  | error flt0 =>
    rw [hjoin] at h
    simp only [Except.error.injEq] at h
    subst h
    refine runAll_join_error data func _ _ _ ?_ hjoin
    intro r hr
    have hb := launchLoop_bounds _ _ _ _ r hr
    omega

theorem valueOf_spec {T E R : Type} [Inhabited R] (func : T → Except E R) (data : List T)
    (h : ∀ x ∈ data, ∃ y, func x = Except.ok y) :
    ∀ x ∈ data, func x = Except.ok (valueOf func x) := by
  intro x hx
  rcases h x hx with ⟨y, hy⟩
  unfold valueOf
  rw [hy]

/-! ## Launch failure when the chunk size has wrapped -/

theorem chunkSize_wrapped (n w : Nat) (hw : 1 ≤ w) (hsize : n < SIZE_MODULUS)
    (hwrap : ¬ n + w - 1 < SIZE_MODULUS) : chunkSize n w = 0 := by
  unfold chunkSize
  apply Nat.div_eq_of_lt
  unfold sizeSub sizeAdd SIZE_MODULUS at *
  omega

/-- A wrapped call on a non-empty input has to launch more tasks than any
    `std::vector` of futures can hold. -/
theorem wrapped_needs_too_many (n w : Nat) (hw : 1 ≤ w) (hn : 1 ≤ n)
    (hdata : n ≤ VECTOR_MAX_SIZE) (hwrap : ¬ n + w - 1 < SIZE_MODULUS) :
    VECTOR_MAX_SIZE < (launchedTasks ⟨w⟩ n).length := by
  have hsize : n < SIZE_MODULUS := by
    unfold VECTOR_MAX_SIZE at hdata
    unfold SIZE_MODULUS
    omega
  rw [launchedTasks_wrapped w n hn (chunkSize_wrapped n w hw hsize hwrap),
    List.length_replicate]
  unfold VECTOR_MAX_SIZE SIZE_MODULUS at *
  omega

/-- A call that can launch all its tasks has an empty input or a chunk size
    that has not wrapped. -/
theorem launchable_fits (n w capacity : Nat) (hw : 1 ≤ w) (hdata : n ≤ VECTOR_MAX_SIZE)
    (hcap : capacity ≤ VECTOR_MAX_SIZE)
    (hlen : (launchedTasks ⟨w⟩ n).length ≤ capacity) :
    n = 0 ∨ n + w - 1 < SIZE_MODULUS := by
  rcases Nat.eq_zero_or_pos n with h0 | h0
  · exact Or.inl h0
  · right
    by_contra hwrap
    have h := wrapped_needs_too_many n w hw h0 hdata hwrap
    omega

/-- C2: for every worker count `W ≥ 1` and every input, a vector `parallel_map`
    returns has the length of the input, whatever the transform; and for a
    transform that cannot throw a vector is returned. -/
theorem parallel_map_length {T E R : Type} [Inhabited R] (data : List T) (W : Nat)
    (hW : 1 ≤ W) :
    (∀ (func : T → Except E R) (result : List R),
      parallel_map ⟨W⟩ data func = Except.ok result → result.length = data.length) ∧
    (∀ f : T → R, ∃ result : List R,
      parallel_map ⟨W⟩ data (noThrow f : T → Except E R) = Except.ok result ∧
        result.length = data.length) := by
  refine ⟨fun func result h => parallel_map_ok_length ⟨W⟩ data func result h, ?_⟩
  intro f
  refine ⟨_, parallel_map_noThrow W hW data f, ?_⟩
  rw [foldl_pureWrite_length, List.length_replicate]

/-- C2 at 3 workers and an input of 5 elements. -/
theorem parallel_map_length_witness :
    1 ≤ 3 ∧ ∃ result : List Nat, parallel_map ⟨3⟩ [4, 8, 15, 16, 23]
        (noThrow (fun x => x * 2) : Nat → Except Empty Nat) = Except.ok result ∧
      result.length = [4, 8, 15, 16, 23].length :=
  ⟨by decide, (parallel_map_length [4, 8, 15, 16, 23] 3 (by decide)).2 (fun x => x * 2)⟩

/-- C4 as stated fails: the constructor accepts the worker count 0, and a later
    `parallel_map` call on that mapper divides by zero when computing the chunk size. -/
theorem zero_workers_accepted :
    (ParallelProcessor.mk 0).numThreads = 0 ∧
    parallel_map (ParallelProcessor.mk 0) [1, 2, 3] (noThrow id : Nat → Except Empty Nat)
      = Except.error Fault.divideByZero :=
  ⟨rfl, rfl⟩

/-- C4, as amended: the constructor stores any worker count unchecked, 0 included,
    and with the count 0 every `parallel_map` call reaches the division by zero
    of the chunk-size computation, whatever the input and the transform. -/
theorem zero_workers_divide_by_zero {T E R : Type} [Inhabited R] (data : List T)
    (func : T → Except E R) :
    (∀ n, (ParallelProcessor.mk n).numThreads = n) ∧
    parallel_map (ParallelProcessor.mk 0) data func = Except.error Fault.divideByZero :=
  ⟨fun _ => rfl, rfl⟩

/-- C5: for every worker count `W ≥ 1` and every transform, `parallel_map` on the
    empty input launches no task and returns the empty vector. -/
theorem parallel_map_empty {T E R : Type} [Inhabited R] (W : Nat) (func : T → Except E R)
    (hW : 1 ≤ W) :
    launchedTasks ⟨W⟩ ([] : List T).length = [] ∧
    parallel_map ⟨W⟩ ([] : List T) func = Except.ok [] := by
  refine ⟨launchedTasks_empty _, ?_⟩
  unfold parallel_map
  simp only []
  rw [if_neg (by omega), List.length_nil, launchedTasks_empty]
  rfl

/-- C5, the scenario of the specification: the empty input with 4 workers and the
    identity gives the empty vector. -/
theorem parallel_map_empty_witness :
    1 ≤ 4 ∧ launchedTasks ⟨4⟩ ([] : List Nat).length = [] ∧
    parallel_map ⟨4⟩ ([] : List Nat) (noThrow id : Nat → Except Empty Nat) = Except.ok [] :=
  ⟨by decide, parallel_map_empty 4 (noThrow id) (by decide)⟩

/-- C10: when `N + W - 1 < 2 ^ 64`, the machine chunk size is `⌈N / W⌉`, and for
    every loop index `t < W` (so for every index the loop reaches) neither
    `t * chunkSize` nor `start + chunkSize` wraps: the machine `start` and `end`
    are their unbounded-integer values. -/
theorem chunk_bounds_do_not_wrap (N W : Nat) (hW : 1 ≤ W)
    (hfit : N + W - 1 < SIZE_MODULUS) :
    chunkSize N W = ⌈(N : ℚ) / (W : ℚ)⌉₊ ∧
    ∀ t, t < W →
      t * chunkSize N W < SIZE_MODULUS ∧
      t * chunkSize N W + chunkSize N W < SIZE_MODULUS ∧
      chunkStart (chunkSize N W) t = t * chunkSize N W ∧
      chunkEnd N (chunkSize N W) t = min (t * chunkSize N W + chunkSize N W) N := by
  rw [natCeil_div N W hW, chunkSize_eq N W hW hfit]
  refine ⟨rfl, ?_⟩
  intro t ht
  have h := succ_mul_ceil_le N W t ht
  have h0 := Nat.zero_le ((N + W - 1) / W)
  refine ⟨?_, ?_, chunkStart_eq N W t ht hfit, chunkEnd_eq N W t ht hfit⟩
  · generalize (N + W - 1) / W = cs at h h0
    omega
  · generalize (N + W - 1) / W = cs at h h0
    omega

/-- C10 at `N = 10`, `W = 4`: chunk size 3, and worker 3 gets `[9, 10)`. -/
theorem chunk_bounds_do_not_wrap_witness :
    (1 ≤ 4 ∧ 10 + 4 - 1 < SIZE_MODULUS) ∧
    chunkSize 10 4 = ⌈((10 : Nat) : ℚ) / ((4 : Nat) : ℚ)⌉₊ ∧
    ∀ t, t < 4 →
      t * chunkSize 10 4 < SIZE_MODULUS ∧
      t * chunkSize 10 4 + chunkSize 10 4 < SIZE_MODULUS ∧
      chunkStart (chunkSize 10 4) t = t * chunkSize 10 4 ∧
      chunkEnd 10 (chunkSize 10 4) t = min (t * chunkSize 10 4 + chunkSize 10 4) 10 :=
  ⟨⟨by decide, by decide⟩, chunk_bounds_do_not_wrap 10 4 (by decide) (by decide)⟩

/-- C3, as amended: when `N + W - 1` does not wrap around, the launched ranges
    partition `[0, N)`: every index below `N` lies in exactly one launched range,
    two different launched ranges share no index, and no launched range holds an
    index `≥ N`. -/
theorem launched_ranges_partition (N W : Nat) (hW : 1 ≤ W)
    (hfit : N + W - 1 < SIZE_MODULUS) :
    (∀ i, i < N →
      ∃! t : Nat, ∃ r : Nat × Nat, (launchedTasks ⟨W⟩ N)[t]? = some r ∧ r.1 ≤ i ∧ i < r.2) ∧
    (∀ (s t : Nat) (ra rb : Nat × Nat), s ≠ t → (launchedTasks ⟨W⟩ N)[s]? = some ra →
      (launchedTasks ⟨W⟩ N)[t]? = some rb →
      ∀ i, ¬ (ra.1 ≤ i ∧ i < ra.2 ∧ rb.1 ≤ i ∧ i < rb.2)) ∧
    (∀ r ∈ launchedTasks ⟨W⟩ N, ∀ i, r.1 ≤ i → i < r.2 → i < N) := by
  have hidx : ∀ (t : Nat) (r : Nat × Nat) (i : Nat), (launchedTasks ⟨W⟩ N)[t]? = some r → r.1 ≤ i → i < r.2 →
      t = i / ((N + W - 1) / W) := by
    intro t r i ht h1 h2
    have hN : 1 ≤ N := by
      rcases Nat.eq_zero_or_pos N with h0 | h0
      · subst h0
        rw [launchedTasks_empty] at ht
        simp at ht
      · exact h0
    have hr := ((launchedTasks_getElem? N W hN hW hfit t r).mp ht).2
    subst hr
    exact idealChunk_index N _ t i h1 h2
  refine ⟨?_, ?_, ?_⟩
  · intro i hi
    rcases exists_launched_range N W hW hfit i hi with ⟨r, hr, h1, h2⟩
    rcases List.mem_iff_getElem?.mp hr with ⟨t, ht⟩
    refine ⟨t, ⟨r, ht, h1, h2⟩, ?_⟩
    rintro t2 ⟨r2, ht2, h3, h4⟩
    rw [hidx t r i ht h1 h2, hidx t2 r2 i ht2 h3 h4]
  · rintro s t ra rb hst hs ht i ⟨h1, h2, h3, h4⟩
    exact hst ((hidx s ra i hs h1 h2).trans (hidx t rb i ht h3 h4).symm)
  · intro r hr i _ h2
    have hb := launchLoop_bounds _ _ _ _ r hr
    omega

/-- C3 at `N = 2`, `W = 5` (more workers than elements). -/
theorem launched_ranges_partition_witness :
    (1 ≤ 5 ∧ 2 + 5 - 1 < SIZE_MODULUS) ∧
    (∀ i, i < 2 →
      ∃! t : Nat, ∃ r : Nat × Nat, (launchedTasks ⟨5⟩ 2)[t]? = some r ∧ r.1 ≤ i ∧ i < r.2) ∧
    (∀ (s t : Nat) (ra rb : Nat × Nat), s ≠ t → (launchedTasks ⟨5⟩ 2)[s]? = some ra →
      (launchedTasks ⟨5⟩ 2)[t]? = some rb →
      ∀ i, ¬ (ra.1 ≤ i ∧ i < ra.2 ∧ rb.1 ≤ i ∧ i < rb.2)) ∧
    (∀ r ∈ launchedTasks ⟨5⟩ 2, ∀ i, r.1 ≤ i → i < r.2 → i < 2) :=
  ⟨⟨by decide, by decide⟩, launched_ranges_partition 2 5 (by decide) (by decide)⟩

/-- C3 as stated fails when the chunk-size sum wraps: with `N = 2` and
    `W = 2 ^ 64 - 1` index 0 lies in no launched range. -/
theorem launched_ranges_miss_index :
    1 ≤ 2 ^ 64 - 1 ∧ 0 < 2 ∧
    ∀ r ∈ launchedTasks ⟨2 ^ 64 - 1⟩ 2, ¬ (r.1 ≤ 0 ∧ 0 < r.2) := by
  refine ⟨by decide, by decide, ?_⟩
  intro r hr
  rw [launchedTasks_wrapped (2 ^ 64 - 1) 2 (by decide) (by decide)] at hr
  rw [List.eq_of_mem_replicate hr]
  decide

/-- C6, as amended: for every input and worker count `W ≥ 1`, if the transform
    throws on some element then `parallel_map` ends with an error, and a vector
    returned as a success means that the transform threw on no element; an error
    is either the failure of a launch or an exception the transform threw on an
    element; so when the call can launch all its tasks it ends with an error
    exactly when the transform throws on some element. -/
theorem parallel_map_propagates {T E R : Type} [Inhabited R] (data : List T)
    (W capacity : Nat) (func : T → Except E R) (hW : 1 ≤ W)
    (hdata : data.length ≤ VECTOR_MAX_SIZE) (hcap : capacity ≤ VECTOR_MAX_SIZE) :
    ((∃ x ∈ data, ∃ e, func x = Except.error e) →
      ∃ flt, parallel_map_on capacity ⟨W⟩ data func = Except.error flt) ∧
    (∀ result : List R, parallel_map_on capacity ⟨W⟩ data func = Except.ok result →
      ∀ x ∈ data, ∃ r, func x = Except.ok r) ∧
    (∀ flt, parallel_map_on capacity ⟨W⟩ data func = Except.error flt →
      (flt = Fault.launchFailed ∧ capacity < (launchedTasks ⟨W⟩ data.length).length) ∨
      ∃ x ∈ data, ∃ e, func x = Except.error e ∧ flt = Fault.thrown e) ∧
    ((launchedTasks ⟨W⟩ data.length).length ≤ capacity →
      ((∃ flt, parallel_map_on capacity ⟨W⟩ data func = Except.error flt) ↔
        ∃ x ∈ data, ∃ e, func x = Except.error e)) := by
  have hW0 : ¬ W = 0 := by omega
  have hok : ∀ result : List R, parallel_map_on capacity ⟨W⟩ data func = Except.ok result →
      ∀ x ∈ data, ∃ r, func x = Except.ok r := by
    intro result h x hx
    unfold parallel_map_on at h
    simp only [] at h
    rw [if_neg hW0] at h
    by_cases hc : capacity < (launchedTasks ⟨W⟩ data.length).length
    · rw [if_pos hc] at h
      exact absurd h (by simp)
    · rw [if_neg hc] at h
      rcases launchable_fits data.length W capacity hW hdata hcap (by omega) with h0 | hfit
      · have hnil : data = [] := List.eq_nil_of_length_eq_zero h0
        subst hnil
        exact absurd hx (by simp)
      · exact parallel_map_ok_all W hW data func hfit result h x hx
  have herr : ∀ flt, parallel_map_on capacity ⟨W⟩ data func = Except.error flt →
      (flt = Fault.launchFailed ∧ capacity < (launchedTasks ⟨W⟩ data.length).length) ∨
      ∃ x ∈ data, ∃ e, func x = Except.error e ∧ flt = Fault.thrown e := by
    intro flt h
    unfold parallel_map_on at h
    simp only [] at h
    rw [if_neg hW0] at h
    by_cases hc : capacity < (launchedTasks ⟨W⟩ data.length).length
    · rw [if_pos hc, Except.error.injEq] at h
      exact Or.inl ⟨h.symm, hc⟩
    · rw [if_neg hc] at h
      exact Or.inr (parallel_map_error_thrown W hW data func flt h)
  have hfail : (∃ x ∈ data, ∃ e, func x = Except.error e) →
      ∃ flt, parallel_map_on capacity ⟨W⟩ data func = Except.error flt := by
    rintro ⟨x, hx, e, he⟩
    cases hpm : parallel_map_on capacity ⟨W⟩ data func with
    | error flt => exact ⟨flt, rfl⟩
    | ok result =>
      rcases hok result hpm x hx with ⟨y, hy⟩
      rw [he] at hy
      exact absurd hy (by simp)
  refine ⟨hfail, hok, herr, ?_⟩
  intro hlen
  refine ⟨?_, hfail⟩
  rintro ⟨flt, h⟩
  rcases herr flt h with ⟨_, hc⟩ | ⟨x, hx, e, he, _⟩
  · omega
  · exact ⟨x, hx, e, he⟩

/-- C6 at 2 workers on `[1, 2, 3, 4]` with a transform that throws on 3: the
    call ends with that exception. -/
theorem parallel_map_propagates_witness :
    (1 ≤ 2 ∧ [1, 2, 3, 4].length ≤ VECTOR_MAX_SIZE ∧ 2 ≤ VECTOR_MAX_SIZE ∧
      (launchedTasks ⟨2⟩ [1, 2, 3, 4].length).length ≤ 2) ∧
    parallel_map_on 2 ⟨2⟩ [1, 2, 3, 4]
        (fun x => if x = 3 then Except.error x else (Except.ok (x * 10) : Except Nat Nat))
      = Except.error (Fault.thrown 3) ∧
    ((∃ flt, parallel_map_on 2 ⟨2⟩ [1, 2, 3, 4]
        (fun x => if x = 3 then Except.error x else (Except.ok (x * 10) : Except Nat Nat))
          = Except.error flt) ↔
      ∃ x ∈ [1, 2, 3, 4], ∃ e,
        (fun x => if x = 3 then Except.error x else (Except.ok (x * 10) : Except Nat Nat)) x
          = Except.error e) :=
  ⟨⟨by decide, by decide, by decide, by decide⟩, rfl,
    (parallel_map_propagates [1, 2, 3, 4] 2 2
      (fun x => if x = 3 then Except.error x else (Except.ok (x * 10) : Except Nat Nat))
      (by decide) (by decide) (by decide)).2.2.2 (by decide)⟩

/-- C6 as stated fails when the chunk-size sum wraps: with `2 ^ 64 - 1` workers
    and the input `[5, 7]` the chunk size is 0, the loop never breaks, and
    whatever number of tasks the platform can launch the call ends with the
    exception of a failed launch although the transform throws on no element. -/
theorem parallel_map_launch_failure :
    1 ≤ 2 ^ 64 - 1 ∧ [5, 7].length ≤ VECTOR_MAX_SIZE ∧
    (∀ x ∈ [5, 7], ∃ r, (noThrow (fun x => x + 1) : Nat → Except Empty Nat) x = Except.ok r) ∧
    ∀ capacity, capacity ≤ VECTOR_MAX_SIZE →
      parallel_map_on capacity ⟨2 ^ 64 - 1⟩ [5, 7]
          (noThrow (fun x => x + 1) : Nat → Except Empty Nat)
        = Except.error Fault.launchFailed := by
  refine ⟨by decide, by decide, fun x _ => ⟨x + 1, rfl⟩, ?_⟩
  intro capacity hcap
  have h := wrapped_needs_too_many [5, 7].length (2 ^ 64 - 1) (by decide) (by decide)
    (by decide) (by decide)
  unfold parallel_map_on
  simp only []
  rw [if_neg (by decide), if_pos (by omega)]

/-- C8: with one worker and an input whose size is a `size_t` value, a non-empty
    input launches exactly the task `[0, N)`, and the returned vector is the one
    the loop of `measure_sequential` builds. -/
theorem single_worker_sequential {T E R : Type} [Inhabited R] (data : List T)
    (prior : List R) (f : T → R) (hsize : data.length < SIZE_MODULUS) :
    (data ≠ [] → launchedTasks ⟨1⟩ data.length = [(0, data.length)]) ∧
    parallel_map ⟨1⟩ data (noThrow f : T → Except E R)
      = Except.ok (measure_sequential data prior f) := by
  constructor
  · intro hne
    have hpos : 1 ≤ data.length := by
      cases data with
      | nil => exact absurd rfl hne
      | cons x rest => simp
    exact launchedTasks_single data.length hpos hsize
  · rw [measure_sequential_eq_map]
    exact parallel_map_eq_map 1 (le_refl 1) data f (by omega)

/-- C8 on `[3, 1, 4]` with `f x = 2 * x`. -/
theorem single_worker_sequential_witness :
    [3, 1, 4].length < SIZE_MODULUS ∧
    ([3, 1, 4] ≠ [] → launchedTasks ⟨1⟩ [3, 1, 4].length = [(0, [3, 1, 4].length)]) ∧
    parallel_map ⟨1⟩ [3, 1, 4] (noThrow (fun x => 2 * x) : Nat → Except Empty Nat)
      = Except.ok (measure_sequential [3, 1, 4] [9, 9] (fun x => 2 * x)) :=
  ⟨by decide, single_worker_sequential [3, 1, 4] [9, 9] (fun x => 2 * x) (by decide)⟩

/-- C9, as amended: for `N ≥ 1` and `W ≥ 1` with `N + W - 1` not wrapping around,
    the chunk size is `cs = ⌈N / W⌉` and the launched tasks are exactly the ranges
    `[t * cs, min (t * cs + cs) N)` for `t = 0, ..., k - 1` with `k = ⌈N / cs⌉`;
    `k` is the first `t` with `t * cs ≥ N`, `k ≤ W`, every launched range is
    non-empty, every launched range but the last has `cs` elements, and workers
    `t ≥ k` get no task. -/
theorem launched_ranges_shape (N W : Nat) (hN : 1 ≤ N) (hW : 1 ≤ W)
    (hfit : N + W - 1 < SIZE_MODULUS) :
    chunkSize N W = ⌈(N : ℚ) / (W : ℚ)⌉₊ ∧
    launchedTasks ⟨W⟩ N
      = (List.range ⌈(N : ℚ) / (chunkSize N W : ℚ)⌉₊).map
          (fun t => (t * chunkSize N W, min (t * chunkSize N W + chunkSize N W) N)) ∧
    (∀ t, t < ⌈(N : ℚ) / (chunkSize N W : ℚ)⌉₊ ↔ t * chunkSize N W < N) ∧
    ⌈(N : ℚ) / (chunkSize N W : ℚ)⌉₊ ≤ W ∧
    (launchedTasks ⟨W⟩ N).length = ⌈(N : ℚ) / (chunkSize N W : ℚ)⌉₊ ∧
    (∀ r ∈ launchedTasks ⟨W⟩ N, r.1 < r.2) ∧
    (∀ (t : Nat) (r : Nat × Nat), t + 1 < (launchedTasks ⟨W⟩ N).length → (launchedTasks ⟨W⟩ N)[t]? = some r →
      r.2 - r.1 = chunkSize N W) ∧
    (∀ t, ⌈(N : ℚ) / (chunkSize N W : ℚ)⌉₊ ≤ t → (launchedTasks ⟨W⟩ N)[t]? = none) := by
  have hcs := ceil_pos N W hN hW
  have htasks := launchedTasks_eq N W hN hW hfit
  have hget := launchedTasks_getElem? N W hN hW hfit
  have hk := chunkCount_le N W hN hW
  rw [natCeil_div N W hW, chunkSize_eq N W hW hfit, natCeil_div N _ hcs]
  have hlen : (launchedTasks ⟨W⟩ N).length
      = (N + (N + W - 1) / W - 1) / ((N + W - 1) / W) := by
    rw [htasks, List.length_map, List.length_range]
  generalize (N + W - 1) / W = cs at hcs htasks hget hk hlen
  have hiff := fun t => lt_chunkCount_iff N cs t hcs
  refine ⟨rfl, htasks, hiff, hk, hlen, ?_, ?_, ?_⟩
  · intro r hr
    rcases List.mem_iff_getElem?.mp hr with ⟨t, ht⟩
    rcases (hget t r).mp ht with ⟨htk, hr2⟩
    subst hr2
    have h := (hiff t).mp htk
    unfold idealChunk
    simp only []
    omega
  · intro t r ht hr
    rcases (hget t r).mp hr with ⟨_, hr2⟩
    subst hr2
    have h := (hiff (t + 1)).mp (by omega)
    have h3 : (t + 1) * cs = t * cs + cs := by ring
    unfold idealChunk
    simp only []
    omega
  · intro t ht
    exact List.getElem?_eq_none (by omega)

/-- C9 at `N = 10`, `W = 4`: chunk size 3 and the four ranges
    `[0, 3)`, `[3, 6)`, `[6, 9)`, `[9, 10)`. -/
theorem launched_ranges_shape_witness :
    (1 ≤ 10 ∧ 1 ≤ 4 ∧ 10 + 4 - 1 < SIZE_MODULUS) ∧
    launchedTasks ⟨4⟩ 10 = [(0, 3), (3, 6), (6, 9), (9, 10)] ∧
    (∀ r ∈ launchedTasks ⟨4⟩ 10, r.1 < r.2) ∧
    (∀ (t : Nat) (r : Nat × Nat), t + 1 < (launchedTasks ⟨4⟩ 10).length → (launchedTasks ⟨4⟩ 10)[t]? = some r →
      r.2 - r.1 = chunkSize 10 4) :=
  ⟨⟨by decide, by decide, by decide⟩, by decide,
    (launched_ranges_shape 10 4 (by decide) (by decide) (by decide)).2.2.2.2.2.1,
    (launched_ranges_shape 10 4 (by decide) (by decide) (by decide)).2.2.2.2.2.2.1⟩

/-- C9 as stated fails when the chunk-size sum wraps: with `N = 2` and
    `W = 2 ^ 64 - 1` the chunk size is 0 instead of `⌈2 / W⌉ = 1`, and every one
    of the `W` workers is given the empty range `[0, 0)`. -/
theorem launched_ranges_empty_on_wrap :
    1 ≤ 2 ∧ 1 ≤ 2 ^ 64 - 1 ∧
    chunkSize 2 (2 ^ 64 - 1) = 0 ∧
    launchedTasks ⟨2 ^ 64 - 1⟩ 2 = List.replicate (2 ^ 64 - 1) (0, 0) ∧
    (∃ r ∈ launchedTasks ⟨2 ^ 64 - 1⟩ 2, ¬ r.1 < r.2) ∧
    (launchedTasks ⟨2 ^ 64 - 1⟩ 2).length ≠ 2 := by
  have h := launchedTasks_wrapped (2 ^ 64 - 1) 2 (by decide) (by decide)
  refine ⟨by decide, by decide, by decide, h, ?_, ?_⟩
  · rw [h]
    exact ⟨(0, 0), List.mem_replicate.mpr ⟨by decide, rfl⟩, by decide⟩
  · rw [h, List.length_replicate]
    decide

end RGT
